import Mathlib

/-
Shallow embedding of the qlog crate (src/src/lib.rs, src/src/loggable.rs).

The pure data and control flow of the worker loop, the public Logger
operations, and the ErasedLoggable container are translated into Lean
definitions.  Machine-level aspects are represented explicitly:
  * heap allocation and deallocation are modelled as events carrying the
    Layout (size and alignment) passed to alloc and dealloc;
  * a panic coming from .expect is modelled as Option.none (the operation
    aborts instead of returning);
  * the wall clock (Utc::now) is modelled as a Nat counter incremented per
    processed entry;
  * the flume channel is modelled, following the spec, as delivering to the
    worker one list that interleaves the per-producer submission sequences
    while preserving each producer's own order (first-in-first-out).
-/

namespace Qlog

/-- Level, src/src/lib.rs lines 13-19. -/
inductive Level
  | debug
  | info
  | warn
  | error
deriving DecidableEq

/-- std::fmt::Error, the unit error type of the fmt::Result returned by
Loggable::log_to. -/
inductive FmtError
  | mk
deriving DecidableEq

/-- std::alloc::Layout: the size and alignment of an allocation
(Layout::new::<L>() in loggable.rs line 63). -/
structure Layout where
  size : Nat
  align : Nat
deriving DecidableEq

/-- A Rust value implementing the Loggable trait (src/src/loggable.rs lines
4-7): it has a type with a size and alignment, and a single-use capability
log_to that either produces the text it writes to the writer or fails with a
formatting error. -/
structure Payload where
  size : Nat
  align : Nat
  log_to : Except FmtError String

/-- The impl of Loggable for a string slice (src/src/loggable.rs lines 19-24):
log_to is writer.write_str(self), which for the in-memory String buffer used
by the worker always succeeds and appends the string itself.  A Rust string
slice is a pointer plus a length: 16 bytes, alignment 8, on a 64-bit target. -/
def strPayload (s : String) : Payload :=
  ⟨16, 8, Except.ok s⟩

/-- ERASED_SIZE, src/src/loggable.rs line 30. -/
def ERASED_SIZE : Nat := 32

/-- size_of::<usize>() on the 64-bit target assumed throughout the spec. -/
def USIZE_SIZE : Nat := 8

/-- INLINE_DATA_SIZE = ERASED_SIZE - size_of::<usize>(),
src/src/loggable.rs line 31. -/
def INLINE_DATA_SIZE : Nat := ERASED_SIZE - USIZE_SIZE

/-- Inner, src/src/loggable.rs lines 33-43.  The trampoline do_log_to is
specialised to the wrapped type at construction; in the model it carries the
wrapped value's render capability (the reconstruction of the value from the
stored bytes followed by the call of its log_to).  The Boxed variant records
the Layout used for the allocation. -/
inductive Inner
  | inline (do_log_to : Except FmtError String)
  | boxed (do_log_to : Except FmtError String) (layout : Layout)

/-- One heap event: the argument is the Layout handed to std::alloc::alloc or
std::alloc::dealloc. -/
inductive HeapEvent
  | alloc (layout : Layout)
  | dealloc (layout : Layout)
deriving DecidableEq

/-- Inner::new, src/src/loggable.rs lines 48-80: if the payload size exceeds
INLINE_DATA_SIZE, allocate a block with Layout::new::<L>() (one alloc event),
record that layout, and store the pointer (Boxed); otherwise copy the bytes
into the inline storage with no allocation (Inline).  The returned list holds
the heap events construction performed. -/
def Inner.new (p : Payload) : Inner × List HeapEvent :=
  if p.size > INLINE_DATA_SIZE then
    (Inner.boxed p.log_to ⟨p.size, p.align⟩, [HeapEvent.alloc ⟨p.size, p.align⟩])
  else
    (Inner.inline p.log_to, [])

/-- ErasedLoggable, src/src/loggable.rs line 83. -/
structure ErasedLoggable where
  inner : Inner

/-- ErasedLoggable::new, src/src/loggable.rs lines 86-92, together with the
heap events its construction performed. -/
def ErasedLoggable.new (p : Payload) : ErasedLoggable × List HeapEvent :=
  ((⟨(Inner.new p).1⟩ : ErasedLoggable), (Inner.new p).2)

/-- impl Loggable for ErasedLoggable, src/src/loggable.rs lines 95-107: both
branches dispatch to the stored trampoline with a pointer to the storage; no
heap event is performed by log_to itself. -/
def ErasedLoggable.log_to : ErasedLoggable → Except FmtError String
  | ⟨Inner.inline d⟩ => d
  | ⟨Inner.boxed d _⟩ => d

/-- impl Drop for ErasedLoggable, src/src/loggable.rs lines 109-116: a Boxed
container deallocates its block with the recorded layout; an Inline container
performs no heap event. -/
def ErasedLoggable.dropEvents : ErasedLoggable → List HeapEvent
  | ⟨Inner.inline _⟩ => []
  | ⟨Inner.boxed _ layout⟩ => [HeapEvent.dealloc layout]

/-- Whether the container took the heap-backed representation. -/
def ErasedLoggable.isBoxed : ErasedLoggable → Bool
  | ⟨Inner.inline _⟩ => false
  | ⟨Inner.boxed _ _⟩ => true

/-- The allocation metadata recorded at construction: the layout stored in
the Boxed variant, none for Inline. -/
def ErasedLoggable.storedLayout : ErasedLoggable → Option Layout
  | ⟨Inner.inline _⟩ => none
  | ⟨Inner.boxed _ layout⟩ => some layout

/-- An observable event in the lifetime of one ErasedLoggable: a heap
allocation or deallocation (with its Layout), or one invocation of the
render capability (the trampoline call inside log_to). -/
inductive ContainerEvent
  | alloc (layout : Layout)
  | render
  | dealloc (layout : Layout)
deriving DecidableEq

/-- Reinterpret a heap event as a container event. -/
def HeapEvent.toContainerEvent : HeapEvent → ContainerEvent
  | HeapEvent.alloc layout => ContainerEvent.alloc layout
  | HeapEvent.dealloc layout => ContainerEvent.dealloc layout

/-- The event trace of the full lifetime of the container wrapping payload p:
construction (ErasedLoggable::new, called from Logger::log at
src/src/lib.rs line 96), then log_to called by the worker (src/src/lib.rs
line 64) when the entry is drained (rendered = true) and no call at all when
the entry is dropped undrained (rendered = false) - log_to takes self by
value and its single call site is the worker loop, so no second call can
occur - and finally Drop of the container. -/
def containerLifetime (p : Payload) (rendered : Bool) : List ContainerEvent :=
  (ErasedLoggable.new p).2.map HeapEvent.toContainerEvent
    ++ (if rendered then [ContainerEvent.render] else [])
    ++ (ErasedLoggable.new p).1.dropEvents.map HeapEvent.toContainerEvent

/-- Log, src/src/lib.rs lines 27-34, with the chrono timestamp modelled as a
Nat tick. -/
structure Log where
  time : Nat
  level : Level
  message : String
deriving DecidableEq

/-- The VecDeque<Log> guarded by the mutex, together with its reserved
capacity (the model keeps capacity abstract: it only grows enough to hold the
elements, and shrink_to_fit drops it to the current length). -/
structure History where
  items : List Log
  cap : Nat
deriving DecidableEq

/-- VecDeque::with_capacity. -/
def History.with_capacity (c : Nat) : History := ⟨[], c⟩

/-- VecDeque::len. -/
def History.len (h : History) : Nat := h.items.length

/-- The messages of the records, oldest first. -/
def History.messages (h : History) : List String := h.items.map Log.message

/-- VecDeque::push_back: appends at the back, growing capacity if needed. -/
def History.push_back (h : History) (l : Log) : History :=
  ⟨h.items ++ [l], max h.cap (h.items.length + 1)⟩

/-- VecDeque::pop_front: removes the oldest record; on an empty deque it
returns None and leaves the deque unchanged. -/
def History.pop_front (h : History) : History := ⟨h.items.tail, h.cap⟩

/-- VecDeque::clear: removes all records, keeping the reserved capacity. -/
def History.clearAll (h : History) : History := ⟨[], h.cap⟩

/-- VecDeque::shrink_to_fit: drops the reserved capacity to the length. -/
def History.shrink_to_fit (h : History) : History := ⟨h.items, h.items.length⟩

/-- LogBuilder, src/src/lib.rs lines 36-39. -/
structure LogBuilder where
  level : Level
  loggable : ErasedLoggable

/-- Result::expect / the panic on Err: the Ok value, or abort (none). -/
def expect : Except ε α → Option α
  | Except.ok a => some a
  | Except.error _ => none

/-- std::sync::PoisonError. -/
inductive PoisonError
  | poisoned

/-- Mutex::lock, modelled on a poison flag: Ok with the guarded history, or
the poison error. -/
def lock (poisoned : Bool) (st : History) : Except PoisonError History :=
  if poisoned then Except.error PoisonError.poisoned else Except.ok st

/-- flume::SendError: the channel is disconnected (no receiver). -/
inductive SendError
  | disconnected

/-- flume::Sender::send, modelled on a flag saying whether the worker
(receiver) is still alive. -/
def send (channelOpen : Bool) (b : LogBuilder) : Except SendError Unit :=
  if channelOpen then Except.ok () else Except.error SendError.disconnected

/-- The VecDeque the Logger starts with, src/src/lib.rs line 56:
VecDeque::with_capacity(limit.unwrap_or(0)). -/
def loggerInit (limit : Option Nat) : History :=
  History.with_capacity (limit.getD 0)

/-- One iteration of the worker loop, src/src/lib.rs lines 62-79, for one
received builder: render the payload into a fresh buffer
(.expect("logging ok") panics on a formatting error, modelled as none), then
under the lock evict the oldest record when a limit is configured and the
length equals it, and push the new record stamped with the current time t. -/
def workerStep (limit : Option Nat) (st : History) (t : Nat) (b : LogBuilder) :
    Option History :=
  match b.loggable.log_to with
  | Except.error _ => none
  | Except.ok buf =>
    let st := match limit with
      | some lim => if st.len = lim then st.pop_front else st
      | none => st
    some (st.push_back ⟨t, b.level, buf⟩)

/-- The worker draining a list of pending builders in channel order, starting
from history st at tick t.  Returns none if any entry panics the worker. -/
def workerDrain (limit : Option Nat) : History → Nat → List LogBuilder → Option History
  | st, _, [] => some st
  | st, t, b :: bs =>
    match workerStep limit st t b with
    | none => none
    | some st' => workerDrain limit st' (t + 1) bs

/-- Logger::log, src/src/lib.rs lines 89-99: build the erased container and
send; .expect("channel is open") panics (none) when the channel is closed. -/
def Logger.log (channelOpen : Bool) (level : Level) (p : Payload) : Option Unit :=
  expect (send channelOpen ⟨level, (ErasedLoggable.new p).1⟩)

/-- Logger::with_logs, src/src/lib.rs lines 106-112: lock
(.expect panics on poison, modelled as none), hand the callback the guarded
record sequence itself (no copy is made), return the callback's result; the
history after the call is the history before it. -/
def Logger.with_logs (poisoned : Bool) (st : History) (f : List Log → O) :
    Option (O × History) :=
  match expect (lock poisoned st) with
  | none => none
  | some logs => some (f logs.items, logs)

/-- Logger::clear, src/src/lib.rs lines 116-120: lock (.expect panics on
poison), clear the deque, shrink_to_fit. -/
def Logger.clear (poisoned : Bool) (st : History) : Option History :=
  match expect (lock poisoned st) with
  | none => none
  | some logs => some (logs.clearAll.shrink_to_fit)

/-- A builder for a string-slice submission at the given level, as produced
by Logger::log (src/src/lib.rs line 96) applied to a &str. -/
def strBuilder (level : Level) (s : String) : LogBuilder :=
  ⟨level, (ErasedLoggable.new (strPayload s)).1⟩

/-- Sequential submission of a list of string messages at level Info from one
thread, fully drained by the worker of a fresh Logger with the given limit. -/
def submitStrs (limit : Option Nat) (msgs : List String) : Option History :=
  workerDrain limit (loggerInit limit) 0 (msgs.map (strBuilder Level.info))

/-- The channel model, following the spec's ordering guarantee: the worker
receives one merged list of (producer id, message) pairs; the merged list is
an interleaving of the per-producer submission lists, each producer's own
submissions appearing in their submission order. -/
inductive Interleave : List (List String) → List (Nat × String) → Prop
  | nil (threads : List (List String)) :
      (∀ l ∈ threads, l = []) → Interleave threads []
  | step (threads : List (List String)) (t : Nat) (m : String)
      (rest : List String) (ms : List (Nat × String)) :
      threads[t]? = some (m :: rest) →
      Interleave (threads.set t rest) ms →
      Interleave threads ((t, m) :: ms)

/-- Whether a container event is a deallocation. -/
def ContainerEvent.isDealloc : ContainerEvent → Bool
  | ContainerEvent.dealloc _ => true
  | _ => false

lemma erased_new_boxed (p : Payload) (hp : INLINE_DATA_SIZE < p.size) :
    ErasedLoggable.new p =
      (⟨Inner.boxed p.log_to ⟨p.size, p.align⟩⟩, [HeapEvent.alloc ⟨p.size, p.align⟩]) := by
  simp [ErasedLoggable.new, Inner.new, hp]

lemma erased_new_inline (p : Payload) (hp : p.size ≤ INLINE_DATA_SIZE) :
    ErasedLoggable.new p = (⟨Inner.inline p.log_to⟩, []) := by
  simp [ErasedLoggable.new, Inner.new, Nat.not_lt.mpr hp]

lemma containerLifetime_boxed (p : Payload) (hp : INLINE_DATA_SIZE < p.size)
    (rendered : Bool) :
    containerLifetime p rendered =
      [ContainerEvent.alloc ⟨p.size, p.align⟩]
        ++ (if rendered then [ContainerEvent.render] else [])
        ++ [ContainerEvent.dealloc ⟨p.size, p.align⟩] := by
  simp [containerLifetime, erased_new_boxed p hp, ErasedLoggable.dropEvents,
    HeapEvent.toContainerEvent]

lemma containerLifetime_inline (p : Payload) (hp : p.size ≤ INLINE_DATA_SIZE)
    (rendered : Bool) :
    containerLifetime p rendered = if rendered then [ContainerEvent.render] else [] := by
  simp [containerLifetime, erased_new_inline p hp, ErasedLoggable.dropEvents]

end Qlog

namespace Qlog

/-- C2: every payload submitted through Logger::log and drained by the worker
has its render capability (Loggable::log_to) invoked exactly once over the
lifetime of the ErasedLoggable wrapping it: the container is constructed at
the submission site (src/src/lib.rs line 96), log_to takes self by value and
its only call site is the worker loop (src/src/lib.rs line 64), which calls
it once per received builder, and the container is then dropped. -/
theorem c2_render_exactly_once (p : Payload) :
    (containerLifetime p true).count ContainerEvent.render = 1 := by
  by_cases hp : p.size ≤ INLINE_DATA_SIZE
  · simp [containerLifetime_inline p hp]
  · simp [containerLifetime_boxed p (Nat.not_le.mp hp)]

/-- C3: a heap-backed container deallocates its block exactly once, with
exactly the Layout recorded at construction (which is the payload type's own
size and alignment), whether or not it was ever rendered; rendering adds no
deallocation; an inline container deallocates nothing. -/
theorem c3_dealloc_exactly_once (p : Payload) (rendered : Bool) :
    (∀ l, (ErasedLoggable.new p).1.storedLayout = some l →
        l = ⟨p.size, p.align⟩
        ∧ (containerLifetime p rendered).count (ContainerEvent.dealloc l) = 1
        ∧ ∀ l', ContainerEvent.dealloc l' ∈ containerLifetime p rendered → l' = l)
    ∧ ((ErasedLoggable.new p).1.storedLayout = none →
        ∀ l', ContainerEvent.dealloc l' ∉ containerLifetime p rendered)
    ∧ (containerLifetime p true).filter ContainerEvent.isDealloc
        = (containerLifetime p false).filter ContainerEvent.isDealloc := by
  by_cases hp : p.size ≤ INLINE_DATA_SIZE
  · refine ⟨?_, ?_, ?_⟩
    · intro l hl
      rw [erased_new_inline p hp] at hl
      simp [ErasedLoggable.storedLayout] at hl
    · intro _ l' hmem
      rw [containerLifetime_inline p hp] at hmem
      cases rendered <;> simp at hmem
    · simp [containerLifetime_inline p hp, ContainerEvent.isDealloc]
  · have hp' : INLINE_DATA_SIZE < p.size := Nat.not_le.mp hp
    refine ⟨?_, ?_, ?_⟩
    · intro l hl
      rw [erased_new_boxed p hp'] at hl
      simp [ErasedLoggable.storedLayout] at hl
      subst hl
      refine ⟨rfl, ?_, ?_⟩
      · rw [containerLifetime_boxed p hp']
        cases rendered <;> simp [List.count_cons, List.count_append]
      · intro l' hmem
        rw [containerLifetime_boxed p hp'] at hmem
        cases rendered <;> simp at hmem <;> exact hmem
    · intro hl
      rw [erased_new_boxed p hp'] at hl
      simp [ErasedLoggable.storedLayout] at hl
    · rw [containerLifetime_boxed p hp' true, containerLifetime_boxed p hp' false]
      simp [ContainerEvent.isDealloc]

/-- C3 witness: a 40-byte payload takes the heap representation and its
lifetime without a render contains exactly one deallocation with the layout
recorded at construction. -/
theorem c3_witness :
    (containerLifetime ⟨40, 8, Except.ok "x"⟩ false).count
      (ContainerEvent.dealloc ⟨40, 8⟩) = 1 :=
  ((c3_dealloc_exactly_once ⟨40, 8, Except.ok "x"⟩ false).1 ⟨40, 8⟩ rfl).2.1

/-- C4: construction takes the inline representation (no heap event) exactly
when the payload size is at most INLINE_DATA_SIZE = 24 = 32 - 8 bytes; a
larger payload causes exactly one allocation whose Layout is exactly the
payload type's size and alignment, matched over the container lifetime by
exactly one deallocation of that same Layout, rendered or not. -/
theorem c4_inline_iff_small (p : Payload) :
    ((ErasedLoggable.new p).1.isBoxed = false ↔ p.size ≤ INLINE_DATA_SIZE)
    ∧ INLINE_DATA_SIZE = 24
    ∧ (p.size ≤ INLINE_DATA_SIZE → (ErasedLoggable.new p).2 = [])
    ∧ (INLINE_DATA_SIZE < p.size →
        (ErasedLoggable.new p).2 = [HeapEvent.alloc ⟨p.size, p.align⟩]
        ∧ ∀ rendered : Bool,
            (containerLifetime p rendered).count (ContainerEvent.alloc ⟨p.size, p.align⟩) = 1
            ∧ (containerLifetime p rendered).count (ContainerEvent.dealloc ⟨p.size, p.align⟩) = 1) := by
  refine ⟨?_, rfl, ?_, ?_⟩
  · by_cases hp : p.size ≤ INLINE_DATA_SIZE
    · simp [erased_new_inline p hp, ErasedLoggable.isBoxed, hp]
    · simp [erased_new_boxed p (Nat.not_le.mp hp), ErasedLoggable.isBoxed, hp]
  · intro hp
    rw [erased_new_inline p hp]
  · intro hp
    refine ⟨?_, ?_⟩
    · rw [erased_new_boxed p hp]
    · intro rendered
      rw [containerLifetime_boxed p hp]
      cases rendered <;> simp [List.count_cons, List.count_append]

/-- C4 witness: a 40-byte payload exceeds the budget and construction
performs exactly the one allocation sized and aligned for it. -/
theorem c4_witness :
    (ErasedLoggable.new ⟨40, 8, Except.ok "x"⟩).2 = [HeapEvent.alloc ⟨40, 8⟩] :=
  ((c4_inline_iff_small ⟨40, 8, Except.ok "x"⟩).2.2.2 (by decide)).1

lemma History.len_eq_messages_length (h : History) : h.len = h.messages.length := by
  simp [History.len, History.messages]

lemma workerStep_str (limit : Option Nat) (st : History) (t : Nat) (lvl : Level)
    (m : String) :
    workerStep limit st t (strBuilder lvl m) =
      some ((match limit with
        | some lim => if st.len = lim then st.pop_front else st
        | none => st).push_back ⟨t, lvl, m⟩) := rfl

/-- The effect of one worker insertion on the message sequence alone. -/
def pushMsg (limit : Option Nat) (acc : List String) (m : String) : List String :=
  (match limit with
    | some lim => if acc.length = lim then acc.tail else acc
    | none => acc) ++ [m]

lemma messages_push_back (st : History) (l : Log) :
    (st.push_back l).messages = st.messages ++ [l.message] := by
  simp [History.push_back, History.messages]

lemma messages_pop_front (st : History) :
    st.pop_front.messages = st.messages.tail := by
  cases st with
  | mk items cap =>
    cases items <;> simp [History.pop_front, History.messages]

lemma messages_length (st : History) : st.messages.length = st.len := by
  simp [History.messages, History.len]

/-- Draining string submissions acts on the message sequence as the fold of
pushMsg over the submitted messages. -/
lemma drain_str_messages (limit : Option Nat) (lvl : Level) :
    ∀ (msgs : List String) (st : History) (t : Nat),
      (workerDrain limit st t (msgs.map (strBuilder lvl))).map History.messages
        = some (msgs.foldl (pushMsg limit) st.messages) := by
  intro msgs
  induction msgs with
  | nil => intro st t; simp [workerDrain]
  | cons m ms ih =>
    intro st t
    rw [List.map_cons, List.foldl_cons]
    show (match workerStep limit st t (strBuilder lvl m) with
      | none => none
      | some st' => workerDrain limit st' (t + 1) (ms.map (strBuilder lvl))).map
        History.messages = _
    rw [workerStep_str]
    have hmsg : ((match limit with
        | some lim => if st.len = lim then st.pop_front else st
        | none => st).push_back ⟨t, lvl, m⟩).messages
        = pushMsg limit st.messages m := by
      cases limit with
      | none => simp [pushMsg, messages_push_back]
      | some lim =>
        by_cases hl : st.len = lim
        · simp [pushMsg, messages_push_back, messages_pop_front, hl,
            messages_length st, if_pos]
        · have hl' : ¬st.messages.length = lim := by
            rw [messages_length st]; exact hl
          simp [pushMsg, messages_push_back, hl, hl']
    rw [ih _ (t + 1), hmsg]

lemma foldl_pushMsg_none :
    ∀ (msgs acc : List String), msgs.foldl (pushMsg none) acc = acc ++ msgs := by
  intro msgs
  induction msgs with
  | nil => intro acc; simp
  | cons m ms ih =>
    intro acc
    rw [List.foldl_cons]
    show List.foldl (pushMsg none) (acc ++ [m]) ms = _
    rw [ih (acc ++ [m])]
    simp

lemma foldl_pushMsg_limit (N : Nat) (hN : 1 ≤ N) :
    ∀ (msgs acc : List String), acc.length ≤ N →
      msgs.foldl (pushMsg (some N)) acc
        = (acc ++ msgs).drop (acc.length + msgs.length - N) := by
  intro msgs
  induction msgs with
  | nil =>
    intro acc hle
    simp [Nat.sub_eq_zero_of_le hle]
  | cons m ms ih =>
    intro acc hle
    rw [List.foldl_cons]
    by_cases hacc : acc.length = N
    · obtain ⟨a, as, rfl⟩ : ∃ a as, acc = a :: as := by
        cases acc with
        | nil => simp at hacc; omega
        | cons a as => exact ⟨a, as, rfl⟩
      have hstep : pushMsg (some N) (a :: as) m = as ++ [m] := by
        simp [pushMsg, hacc]
      rw [hstep, ih (as ++ [m]) (by simp at hacc ⊢; omega)]
      have hlen : (as ++ [m]).length + ms.length - N = ms.length := by
        simp at hacc ⊢; omega
      have hlen' : (a :: as).length + (m :: ms).length - N = ms.length + 1 := by
        simp at hacc ⊢; omega
      rw [hlen, hlen']
      rw [show (a :: as) ++ m :: ms = a :: (as ++ m :: ms) by simp]
      rw [List.drop_succ_cons]
      rw [show (as ++ [m]) ++ ms = as ++ m :: ms by simp]
    · have hstep : pushMsg (some N) acc m = acc ++ [m] := by
        simp [pushMsg, hacc]
      rw [hstep, ih (acc ++ [m]) (by simp; omega)]
      have hlen : (acc ++ [m]).length + ms.length - N
          = acc.length + (m :: ms).length - N := by
        simp; omega
      rw [hlen]
      rw [show (acc ++ [m]) ++ ms = acc ++ m :: ms by simp]

/-- A successful drain with no configured limit grows the history by exactly
the number of drained entries (for arbitrary payloads, not only strings). -/
lemma drain_len_none :
    ∀ (bs : List LogBuilder) (st : History) (t : Nat) (h : History),
      workerDrain none st t bs = some h → h.len = st.len + bs.length := by
  intro bs
  induction bs with
  | nil =>
    intro st t h hd
    simp [workerDrain] at hd
    subst hd
    simp
  | cons b bs ih =>
    intro st t h hd
    show h.len = st.len + (bs.length + 1)
    cases hlog : b.loggable.log_to with
    | error e => simp [workerDrain, workerStep, hlog] at hd
    | ok buf =>
      simp only [workerDrain, workerStep, hlog] at hd
      have := ih _ _ _ hd
      simp [History.push_back, History.len] at this ⊢
      omega

end Qlog

namespace Qlog

/-- C1 counterexample: the claim quantifies over every configured limit N,
but for limit zero the worker pops from an empty history and then appends,
so one submission leaves one record where the claim requires exactly zero. -/
theorem c1_counterexample :
    (submitStrs (some 0) ["a"]).map History.len = some 1 ∧ (1 : Nat) ≠ 0 := by
  constructor
  · rfl
  · decide

/-- C1 (amended to limits N with 1 ≤ N): a fresh Logger with limit N, after
fully draining M > N sequential string submissions, holds exactly N records
whose messages are the last N submitted messages in submission order. -/
theorem c1_last_n_messages (N : Nat) (hN : 1 ≤ N) (msgs : List String)
    (hM : N < msgs.length) :
    (submitStrs (some N) msgs).map History.messages
        = some (msgs.drop (msgs.length - N))
    ∧ (submitStrs (some N) msgs).map History.len = some N := by
  have hmsg := drain_str_messages (some N) Level.info msgs (loggerInit (some N)) 0
  have hinit : (loggerInit (some N)).messages = [] := rfl
  rw [hinit, foldl_pushMsg_limit N hN msgs [] (by simp)] at hmsg
  simp only [List.nil_append, List.length_nil, Nat.zero_add] at hmsg
  refine ⟨hmsg, ?_⟩
  obtain ⟨h, hh, hmap⟩ : ∃ h, submitStrs (some N) msgs = some h
      ∧ h.messages = msgs.drop (msgs.length - N) := by
    cases hd : submitStrs (some N) msgs with
    | none => rw [show submitStrs (some N) msgs
        = workerDrain (some N) (loggerInit (some N)) 0
            (msgs.map (strBuilder Level.info)) from rfl] at hd
              rw [hd] at hmsg
              simp at hmsg
    | some h =>
      refine ⟨h, rfl, ?_⟩
      rw [show submitStrs (some N) msgs
        = workerDrain (some N) (loggerInit (some N)) 0
            (msgs.map (strBuilder Level.info)) from rfl] at hd
      rw [hd] at hmsg
      simpa using hmsg
  rw [hh]
  have : h.len = N := by
    rw [History.len_eq_messages_length, hmap, List.length_drop]
    omega
  simp [this]

/-- C1 witness: the example from the claim itself, limit 2 with submissions
a, b, c, yields exactly the messages b, c. -/
theorem c1_witness :
    (submitStrs (some 2) ["a", "b", "c"]).map History.messages = some ["b", "c"]
    ∧ (submitStrs (some 2) ["a", "b", "c"]).map History.len = some 2 := by
  have h := c1_last_n_messages 2 (by decide) ["a", "b", "c"] (by decide)
  exact ⟨by rw [h.1]; rfl, h.2⟩

/-- C5: with no configured limit nothing is ever evicted: any fully drained
sequence of submissions leaves a history whose length is exactly the number
of submissions. -/
theorem c5_no_limit_no_eviction (bs : List LogBuilder) (h : History)
    (hd : workerDrain none (loggerInit none) 0 bs = some h) :
    h.len = bs.length := by
  have := drain_len_none bs (loggerInit none) 0 h hd
  simpa [loggerInit, History.with_capacity, History.len] using this

/-- C5 witness: two string submissions drained with no limit leave two
records. -/
theorem c5_witness :
    History.len ⟨[⟨0, Level.info, "x"⟩, ⟨1, Level.info, "y"⟩], 2⟩
      = [strBuilder Level.info "x", strBuilder Level.info "y"].length :=
  c5_no_limit_no_eviction [strBuilder Level.info "x", strBuilder Level.info "y"] _ rfl

/-- Draining from two states with the same records produces the same records:
the reserved capacity influences nothing the worker does. -/
lemma drain_items_invariant (limit : Option Nat) :
    ∀ (bs : List LogBuilder) (st1 st2 : History) (t : Nat), st1.items = st2.items →
      (workerDrain limit st1 t bs).map History.items
        = (workerDrain limit st2 t bs).map History.items := by
  intro bs
  induction bs with
  | nil => intro st1 st2 t h; simp [workerDrain, h]
  | cons b bs ih =>
    intro st1 st2 t h
    cases hlog : b.loggable.log_to with
    | error e => simp [workerDrain, workerStep, hlog]
    | ok buf =>
      have hlen : st1.len = st2.len := by simp [History.len, h]
      cases limit with
      | none =>
        simp only [workerDrain, workerStep, hlog]
        apply ih
        simp [History.push_back, h]
      | some lim =>
        simp only [workerDrain, workerStep, hlog]
        apply ih
        by_cases hl : st1.len = lim
        · rw [if_pos hl, if_pos (by rw [← hlen]; exact hl)]
          simp [History.push_back, History.pop_front, h]
        · rw [if_neg hl, if_neg (by rw [← hlen]; exact hl)]
          simp [History.push_back, h]

/-- C6: Logger::clear empties the history and shrinks the reserved storage to
the (empty) contents; an inspect right after it sees the empty sequence and
returns the callback's result on it; and any sequence of submissions drained
after the clear produces exactly the records it would produce on a freshly
created Logger. -/
theorem c6_clear_resets (st : History) (limit : Option Nat) (bs : List LogBuilder)
    (t : Nat) (O : Type) (f : List Log → O) :
    Logger.clear false st = some (History.mk [] 0)
    ∧ Logger.with_logs false (History.mk [] 0) f = some (f [], History.mk [] 0)
    ∧ (History.mk [] 0).cap = (History.mk [] 0).items.length
    ∧ (workerDrain limit (History.mk [] 0) t bs).map History.items
        = (workerDrain limit (loggerInit limit) t bs).map History.items := by
  refine ⟨rfl, rfl, rfl, ?_⟩
  exact drain_items_invariant limit bs _ _ t rfl

/-- A payload whose render capability fails with a formatting error. -/
def failPayload : Payload := ⟨8, 8, Except.error FmtError.mk⟩

/-- C7: the three failure conditions are all fatal, never surfaced as a
recoverable typed error: a send on a closed channel panics Logger::log
(modelled as none), a poisoned lock panics Logger::with_logs and
Logger::clear, and a formatting failure while rendering panics the worker;
and Logger::log never returns an error value - its outcome is either the
abort or the plain unit value. -/
theorem c7_failures_are_fatal :
    (∀ (level : Level) (p : Payload), Logger.log false level p = none)
    ∧ (∀ (st : History) (O : Type) (f : List Log → O), Logger.with_logs true st f = none)
    ∧ (∀ st : History, Logger.clear true st = none)
    ∧ (∀ (limit : Option Nat) (st : History) (t : Nat) (level : Level),
        workerStep limit st t ⟨level, (ErasedLoggable.new failPayload).1⟩ = none)
    ∧ (∀ (channelOpen : Bool) (level : Level) (p : Payload),
        Logger.log channelOpen level p = none ∨ Logger.log channelOpen level p = some ()) := by
  refine ⟨fun level p => rfl, fun st O f => rfl, fun st => rfl,
    fun limit st t level => rfl, ?_⟩
  intro channelOpen level p
  cases channelOpen
  · exact Or.inl rfl
  · exact Or.inr rfl

/-- C8: Logger::with_logs hands the callback the record sequence itself (no
copy), returns exactly the callback's result, and leaves the history exactly
as it was - it has no effect on the history beyond the callback's own. -/
theorem c8_with_logs_pure (st : History) (O : Type) (f : List Log → O) :
    Logger.with_logs false st f = some (f st.items, st) := rfl

lemma len_push_back (st : History) (l : Log) : (st.push_back l).len = st.len + 1 := by
  simp [History.push_back, History.len]

lemma len_pop_front (st : History) : st.pop_front.len = st.len - 1 := by
  simp [History.pop_front, History.len, List.length_tail]

/-- C10: each worker insertion evicts at most one record, and only when the
current length equals the configured limit; under the precondition 1 ≤ N the
invariant length ≤ N is preserved by every insertion; and for limit zero the
worker pops from the empty history and appends anyway, so one drained
submission leaves length 1, exceeding the configured limit 0. -/
theorem c10_eviction_guard :
    (∀ (limit : Option Nat) (st : History) (t : Nat) (b : LogBuilder) (h : History),
        workerStep limit st t b = some h → st.len ≤ h.len ∧ h.len ≤ st.len + 1)
    ∧ (∀ (N : Nat) (st : History) (t : Nat) (b : LogBuilder) (h : History),
        st.len ≠ N → workerStep (some N) st t b = some h → h.len = st.len + 1)
    ∧ (∀ (N : Nat) (st : History) (t : Nat) (b : LogBuilder) (h : History),
        1 ≤ N → st.len ≤ N → workerStep (some N) st t b = some h → h.len ≤ N)
    ∧ (submitStrs (some 0) ["a"]).map History.len = some 1 := by
  refine ⟨?_, ?_, ?_, rfl⟩
  · intro limit st t b h hstep
    cases hlog : b.loggable.log_to with
    | error e => simp [workerStep, hlog] at hstep
    | ok buf =>
      cases limit with
      | none =>
        simp only [workerStep, hlog, Option.some.injEq] at hstep
        subst hstep
        rw [len_push_back]; omega
      | some lim =>
        simp only [workerStep, hlog, Option.some.injEq] at hstep
        subst hstep
        by_cases hl : st.len = lim
        · rw [if_pos hl, len_push_back, len_pop_front]; omega
        · rw [if_neg hl, len_push_back]; omega
  · intro N st t b h hne hstep
    cases hlog : b.loggable.log_to with
    | error e => simp [workerStep, hlog] at hstep
    | ok buf =>
      simp only [workerStep, hlog, Option.some.injEq] at hstep
      subst hstep
      rw [if_neg hne, len_push_back]
  · intro N st t b h hN hle hstep
    cases hlog : b.loggable.log_to with
    | error e => simp [workerStep, hlog] at hstep
    | ok buf =>
      simp only [workerStep, hlog, Option.some.injEq] at hstep
      subst hstep
      by_cases hl : st.len = N
      · rw [if_pos hl, len_push_back, len_pop_front]; omega
      · rw [if_neg hl, len_push_back]; omega

/-- C10 witness: with limit 1 and a full history of one record, an insertion
keeps the length at the limit. -/
theorem c10_witness :
    History.len ⟨[⟨5, Level.info, "b"⟩], 1⟩ ≤ 1 :=
  c10_eviction_guard.2.2.1 1 ⟨[⟨0, Level.info, "a"⟩], 1⟩ 5 (strBuilder Level.info "b")
    ⟨[⟨5, Level.info, "b"⟩], 1⟩ (by decide) (by decide) rfl

lemma getD_eq_of_get {α : Type} {d x : α} :
    ∀ (l : List α) (n : Nat), l[n]? = some x → l.getD n d = x := by
  intro l
  induction l with
  | nil => intro n h; simp at h
  | cons a as ih =>
    intro n h
    cases n with
    | zero =>
      rw [List.getElem?_cons_zero, Option.some.injEq] at h
      rw [List.getD_cons_zero, h]
    | succ n =>
      rw [List.getElem?_cons_succ] at h
      rw [List.getD_cons_succ]
      exact ih n h

lemma get_some_lt_length {α : Type} {x : α} :
    ∀ (l : List α) (n : Nat), l[n]? = some x → n < l.length := by
  intro l
  induction l with
  | nil => intro n h; simp at h
  | cons a as ih =>
    intro n h
    cases n with
    | zero => simp
    | succ n =>
      rw [List.getElem?_cons_succ] at h
      have := ih n h
      simp
      omega

lemma getD_all_nil :
    ∀ (th : List (List String)) (t : Nat), (∀ l ∈ th, l = []) → th.getD t [] = [] := by
  intro th
  induction th with
  | nil => intro t h; rfl
  | cons a as ih =>
    intro t h
    cases t with
    | zero =>
      rw [List.getD_cons_zero]
      exact h a (List.mem_cons_self a as)
    | succ t =>
      rw [List.getD_cons_succ]
      exact ih t (fun l hl => h l (List.mem_cons_of_mem a hl))

lemma getD_set_self :
    ∀ (th : List (List String)) (t : Nat) (x : List String),
      t < th.length → (th.set t x).getD t [] = x := by
  intro th
  induction th with
  | nil => intro t x h; simp at h
  | cons a as ih =>
    intro t x h
    cases t with
    | zero => rfl
    | succ t =>
      rw [List.set_cons_succ, List.getD_cons_succ]
      exact ih t x (by simp at h; omega)

lemma getD_set_ne :
    ∀ (th : List (List String)) (t t' : Nat) (x : List String),
      t ≠ t' → (th.set t x).getD t' [] = th.getD t' [] := by
  intro th
  induction th with
  | nil => intro t t' x h; rfl
  | cons a as ih =>
    intro t t' x h
    cases t with
    | zero =>
      cases t' with
      | zero => exact absurd rfl h
      | succ t' => rfl
    | succ t =>
      cases t' with
      | zero => rfl
      | succ t' =>
        rw [List.set_cons_succ, List.getD_cons_succ, List.getD_cons_succ]
        exact ih t t' x (fun he => h (by rw [he]))

lemma sum_set_cons :
    ∀ (th : List (List String)) (t : Nat) (m : String) (rest : List String),
      th[t]? = some (m :: rest) →
      ((th.set t rest).map List.length).sum + 1 = (th.map List.length).sum := by
  intro th
  induction th with
  | nil => intro t m rest h; simp at h
  | cons a as ih =>
    intro t m rest h
    cases t with
    | zero =>
      rw [List.getElem?_cons_zero, Option.some.injEq] at h
      subst h
      rw [List.set_cons_zero, List.map_cons, List.sum_cons, List.map_cons,
        List.sum_cons, List.length_cons]
      omega
    | succ t =>
      rw [List.getElem?_cons_succ] at h
      rw [List.set_cons_succ, List.map_cons, List.sum_cons, List.map_cons,
        List.sum_cons]
      have := ih t m rest h
      omega

lemma interleave_length {threads : List (List String)} {merged : List (Nat × String)}
    (h : Interleave threads merged) :
    merged.length = (threads.map List.length).sum := by
  induction h with
  | nil th hall =>
    rw [List.length_nil]
    symm
    apply List.sum_eq_zero
    intro x hx
    simp at hx
    obtain ⟨l, hl, hlen⟩ := hx
    rw [← hlen, hall l hl]
    rfl
  | step th t m rest ms hget hi ih =>
    rw [List.length_cons, ih]
    exact sum_set_cons th t m rest hget

lemma interleave_filter {threads : List (List String)} {merged : List (Nat × String)}
    (h : Interleave threads merged) :
    ∀ t, (merged.filter (fun e => e.1 == t)).map Prod.snd = threads.getD t [] := by
  induction h with
  | nil th hall =>
    intro t
    rw [List.filter_nil, List.map_nil]
    exact (getD_all_nil th t hall).symm
  | step th t' m rest ms hget hi ih =>
    intro t
    by_cases hteq : t' = t
    · subst hteq
      have hfilter : ((t', m) :: ms).filter (fun e => e.1 == t')
          = (t', m) :: ms.filter (fun e => e.1 == t') := by
        simp [List.filter_cons]
      rw [hfilter, List.map_cons, ih t',
        getD_set_self th t' rest (get_some_lt_length th t' hget),
        getD_eq_of_get th t' hget]
    · have hfilter : ((t', m) :: ms).filter (fun e => e.1 == t)
          = ms.filter (fun e => e.1 == t) := by
        simp [List.filter_cons, hteq]
      rw [hfilter, ih t, getD_set_ne th t' t rest hteq]

lemma sum_lengths_const (K : Nat) :
    ∀ th : List (List String), (∀ l ∈ th, l.length = K) →
      (th.map List.length).sum = th.length * K := by
  intro th
  induction th with
  | nil => intro h; simp
  | cons a as ih =>
    intro h
    rw [List.map_cons, List.sum_cons, h a (List.mem_cons_self a as),
      ih (fun l hl => h l (List.mem_cons_of_mem a hl)),
      List.length_cons, Nat.succ_mul]
    exact Nat.add_comm K (as.length * K)

lemma zip_filter_message (tid : Nat) :
    ∀ (a : List (Nat × String)) (b : List Log),
      a.map Prod.snd = b.map Log.message →
      ((a.zip b).filter (fun e => e.1.1 == tid)).map (fun e => e.2.message)
        = (a.filter (fun e => e.1 == tid)).map Prod.snd := by
  intro a
  induction a with
  | nil => intro b h; simp
  | cons x a' ih =>
    intro b h
    cases b with
    | nil => simp at h
    | cons y b' =>
      simp only [List.map_cons, List.cons.injEq] at h
      obtain ⟨h1, h2⟩ := h
      rw [List.zip_cons_cons]
      cases hc : (x.1 == tid) with
      | true =>
        rw [@List.filter_cons_of_pos _ (fun e => e.1.1 == tid) (x, y) (a'.zip b') hc,
          @List.filter_cons_of_pos _ (fun e => e.1 == tid) x a' hc,
          List.map_cons, List.map_cons, ih b' h2, h1]
      | false =>
        have hc' : ¬((x.1 == tid) = true) := by rw [hc]; exact Bool.false_ne_true
        rw [@List.filter_cons_of_neg _ (fun e => e.1.1 == tid) (x, y) (a'.zip b') hc',
          @List.filter_cons_of_neg _ (fun e => e.1 == tid) x a' hc']
        exact ih b' h2

end Qlog

namespace Qlog

/-- C9 counterexample: the claim quantifies over every Logger, but with a
configured limit of 1 the interleaved submissions of two producers with one
entry each drain to a single record, not T times K = 2. -/
theorem c9_counterexample :
    Interleave [["a"], ["b"]] [(0, "a"), (1, "b")]
    ∧ (workerDrain (some 1) (loggerInit (some 1)) 0
        ([(0, "a"), (1, "b")].map (fun e => strBuilder Level.info e.2))).map History.len
        = some 1
    ∧ (1 : Nat) ≠ 2 * 1 := by
  refine ⟨?_, rfl, by decide⟩
  exact Interleave.step _ 0 "a" [] _ rfl
    (Interleave.step _ 1 "b" [] _ rfl (Interleave.nil _ (by decide)))

/-- C9 (amended to a Logger with no configured limit): the worker processes
the channel in arrival order, which interleaves the producers while keeping
each producer's own submissions in order; draining the interleaving of T
producer sequences of K entries each yields exactly T times K records, whose
messages are the merged sequence in channel order, and the records at the
positions of producer t carry exactly that producer's messages in its
submission order. -/
theorem c9_fifo_and_counts (threads : List (List String))
    (merged : List (Nat × String)) (K : Nat) (h : History)
    (hi : Interleave threads merged) (hK : ∀ l ∈ threads, l.length = K)
    (hd : workerDrain none (loggerInit none) 0
        (merged.map (fun e => strBuilder Level.info e.2)) = some h) :
    h.len = threads.length * K
    ∧ h.messages = merged.map Prod.snd
    ∧ ∀ t, ((merged.zip h.items).filter (fun e => e.1.1 == t)).map
          (fun e => e.2.message) = threads.getD t [] := by
  have hmsg := drain_str_messages none Level.info (merged.map Prod.snd)
    (loggerInit none) 0
  rw [foldl_pushMsg_none] at hmsg
  have heq : (merged.map Prod.snd).map (strBuilder Level.info)
      = merged.map (fun e => strBuilder Level.info e.2) := by
    rw [List.map_map]
    rfl
  rw [heq, hd] at hmsg
  have hmessages : h.messages = merged.map Prod.snd := by
    simpa [loggerInit, History.with_capacity, History.messages] using hmsg
  have hlen : h.len = threads.length * K := by
    rw [History.len_eq_messages_length, hmessages, List.length_map,
      interleave_length hi, sum_lengths_const K threads hK]
  refine ⟨hlen, hmessages, ?_⟩
  intro t
  rw [zip_filter_message t merged h.items
    (by simpa [History.messages] using hmessages.symm)]
  exact interleave_filter hi t

/-- C9 witness: two producers with one entry each, merged in arrival order,
drain to exactly two records carrying the merged messages. -/
theorem c9_witness :
    History.len ⟨[⟨0, Level.info, "a"⟩, ⟨1, Level.info, "b"⟩], 2⟩ = 2 * 1
    ∧ History.messages ⟨[⟨0, Level.info, "a"⟩, ⟨1, Level.info, "b"⟩], 2⟩
        = [(0, "a"), (1, "b")].map Prod.snd := by
  have h := c9_fifo_and_counts [["a"], ["b"]] [(0, "a"), (1, "b")] 1
    ⟨[⟨0, Level.info, "a"⟩, ⟨1, Level.info, "b"⟩], 2⟩
    (Interleave.step _ 0 "a" [] _ rfl
      (Interleave.step _ 1 "b" [] _ rfl (Interleave.nil _ (by decide))))
    (by decide) rfl
  exact ⟨h.1, h.2.1⟩

end Qlog
